import Mathlib

/-!
Shallow embedding of `src/main.py` of the `git-sl-up` repository: an
interactive smartlog browser.  Lines of text are modelled as `List Char`.
The Python regular expressions used by the source are embedded as
deterministic greedy-backtracking matchers over `List Char`, mirroring the
leftmost-greedy semantics of Python's `re` module for the concrete
patterns appearing in the source.
-/

set_option maxRecDepth 4000

/-- The ESC character (0x1B), written `\x1B` in the Python patterns. -/
def escChar : Char := Char.ofNat 27

/-- Python's `\s` character class for `str` patterns: Unicode whitespace.
This is the set matched by `re` for text patterns (ASCII whitespace,
the information separators 0x1C-0x1F, and the Unicode space characters). -/
def isPySpace (c : Char) : Bool :=
  c == ' ' || c == '\t' || c == '\n' || c == '\r' ||
  c.toNat == 0xB || c.toNat == 0xC ||
  (0x1C ≤ c.toNat && c.toNat ≤ 0x1F) ||
  c.toNat == 0x85 || c.toNat == 0xA0 || c.toNat == 0x1680 ||
  (0x2000 ≤ c.toNat && c.toNat ≤ 0x200A) ||
  c.toNat == 0x2028 || c.toNat == 0x2029 || c.toNat == 0x202F ||
  c.toNat == 0x205F || c.toNat == 0x3000

/-- Python's `str.strip()`: remove leading and trailing whitespace. -/
def pyStrip (l : List Char) : List Char :=
  ((l.dropWhile isPySpace).reverse.dropWhile isPySpace).reverse

/-- Character class `[@-_]` of the ANSI pattern (the escape-type byte). -/
def isEscTypeByte (c : Char) : Bool := 0x40 ≤ c.toNat && c.toNat ≤ 0x5F

/-- Character class `[0-?]` of the ANSI pattern (parameter bytes). -/
def isParamByte (c : Char) : Bool := 0x30 ≤ c.toNat && c.toNat ≤ 0x3F

/-- Character class the space-to-slash class of the ANSI pattern (intermediate bytes). -/
def isInterByte (c : Char) : Bool := 0x20 ≤ c.toNat && c.toNat ≤ 0x2F

/-- Character class `[@-~]` of the ANSI pattern (the final byte). -/
def isFinalByte (c : Char) : Bool := 0x40 ≤ c.toNat && c.toNat ≤ 0x7E

/-- Try to match the remainder one escape-type byte, starred parameter bytes, starred intermediate bytes, one final byte of the ANSI pattern
ESC, one of the at-to-underscore class, a starred zero-to-question class, a starred space-to-slash class, one final byte of the at-to-tilde class against `l` (the text following an ESC byte),
returning the number of characters consumed.  The three classes
`[0-?]`, the space-to-slash class and `[@-~]` are pairwise disjoint, so the greedy
(backtracking) semantics of the Python pattern coincides with taking the
maximal run for each starred class and then requiring one final byte. -/
def escMatchLen? (l : List Char) : Option Nat :=
  match l with
  | [] => none
  | c :: rest =>
    if isEscTypeByte c then
      let p := (rest.takeWhile isParamByte).length
      let m := ((rest.drop p).takeWhile isInterByte).length
      match rest.drop (p + m) with
      | [] => none
      | d :: _ => if isFinalByte d then some (1 + p + m + 1) else none
    else none

/-- Worker for `remove_colors`, with fuel (the fuel is always at least the
length of the list, so the fuel-exhausted branch is never taken). -/
def rcGo : Nat → List Char → List Char
  | _, [] => []
  | 0, l => l
  | Nat.succ n, c :: rest =>
    if c = escChar then
      match escMatchLen? rest with
      | some k => rcGo n (rest.drop k)
      | none => c :: rcGo n rest
    else c :: rcGo n rest

/-- Source function `remove_colors`: `re.sub` of the ANSI escape pattern
ESC, one of the at-to-underscore class, a starred zero-to-question class, a starred space-to-slash class, one final byte of the at-to-tilde class with the empty string.  `re.sub` scans left to
right; a match can only start at an ESC byte, is removed when found, and
the scan resumes after it; a non-matching character is kept. -/
def remove_colors (l : List Char) : List Char := rcGo l.length l

/-- Greedy backtracking for a starred subpattern: try consuming `k`
characters first, then `k - 1`, ..., down to `0`. -/
def tryFrom {α : Type} (f : Nat → Option α) : Nat → Option α
  | 0 => f 0
  | Nat.succ k =>
    match f (k + 1) with
    | some r => some r
    | none => tryFrom f k

/-- Greedy backtracking for a `+` subpattern: like `tryFrom` but never
consuming zero characters. -/
def tryFromPlus {α : Type} (f : Nat → Option α) : Nat → Option α
  | 0 => none
  | Nat.succ k =>
    match f (k + 1) with
    | some r => some r
    | none => tryFromPlus f k

/-- Length of the maximal run of characters satisfying `p` starting at
position `pos` of `L`. -/
def maxRun (p : Char → Bool) (L : List Char) (pos : Nat) : Nat :=
  ((L.drop pos).takeWhile p).length

/-- A capture span, as returned by Python's `match.span(group)`:
half-open character offsets into the subject line. -/
structure Span where
  start : Nat
  stop : Nat
deriving DecidableEq, Repr

/-- Character class `[\|\:\s]` of the graph-drawing prefix. -/
def graphCls (c : Char) : Bool := c == '|' || c == ':' || isPySpace c

/-- Character class `.` of the patterns: any character except a newline. -/
def notNl (c : Char) : Bool := !(c == '\n')

/-- Python's `$` (without `re.M`): matches at the end of the subject, or
just before a newline at the end of the subject. -/
def matchEnd (L : List Char) (pos : Nat) : Bool :=
  pos == L.length || (pos + 1 == L.length && L.get? pos == some '\n')

/-- Matcher for the tail `(?P<time>.*)$` of the extraction pattern,
starting at `pos`; returns the span of the `time` group. -/
def stTime (L : List Char) (pos : Nat) : Option Span :=
  tryFrom (fun k => if matchEnd L (pos + k) then some ⟨pos, pos + k⟩ else none)
    (maxRun notNl L pos)

/-- Matcher for `(?P<branches>.*)\)\s*(?P<time>.*)$` starting at `pos`
(just after the opening parenthesis); returns the spans of the
`branches` and `time` groups. -/
def stBranches (L : List Char) (pos : Nat) : Option (Span × Span) :=
  tryFrom (fun k =>
    if L.get? (pos + k) == some ')' then
      tryFrom (fun j =>
        (stTime L (pos + k + 1 + j)).map (fun t => (⟨pos, pos + k⟩, t)))
        (maxRun isPySpace L (pos + k + 1))
    else none)
    (maxRun notNl L pos)

/-- Matcher for `\s*(?:\((?P<branches>.*)\)\s*)?(?P<time>.*)$` starting at
`pos` (just after the `author` group).  The optional group is greedy: the
parenthesized alternative is tried first. -/
def stAfterAuthor (L : List Char) (pos : Nat) : Option (Option Span × Span) :=
  tryFrom (fun j =>
    match (if L.get? (pos + j) == some '(' then stBranches L (pos + j + 1) else none) with
    | some (b, t) => some (some b, t)
    | none => (stTime L (pos + j)).map (fun t => ((none : Option Span), t)))
    (maxRun isPySpace L pos)

/-- Matcher for `(?P<author>[^\s]+)` and everything after it. -/
def stAuthor (L : List Char) (pos : Nat) : Option (Span × Option Span × Span) :=
  tryFromPlus (fun k =>
    (stAfterAuthor L (pos + k)).map (fun bt => (⟨pos, pos + k⟩, bt.1, bt.2)))
    (maxRun (fun c => !(isPySpace c)) L pos)

/-- Matcher for the `\s*` between the `commit` and `author` groups and
everything after it. -/
def stAfterCommit (L : List Char) (pos : Nat) : Option (Span × Option Span × Span) :=
  tryFrom (fun j => stAuthor L (pos + j)) (maxRun isPySpace L pos)

/-- Matcher for `(?P<commit>[^\s]+)` and everything after it. -/
def stCommit (L : List Char) (pos : Nat) : Option (Span × Span × Option Span × Span) :=
  tryFromPlus (fun k =>
    (stAfterCommit L (pos + k)).map (fun r => (⟨pos, pos + k⟩, r)))
    (maxRun (fun c => !(isPySpace c)) L pos)

/-- Matcher for the `\s*` after the node glyph and everything after it. -/
def stAfterGlyph (L : List Char) (pos : Nat) : Option (Span × Span × Option Span × Span) :=
  tryFrom (fun j => stCommit L (pos + j)) (maxRun isPySpace L pos)

/-- The full extraction pattern of `get_elements_from_log_line`:
`^[\|\:\s]*[o\*]\s*(?P<commit>[^\s]+)\s*(?P<author>[^\s]+)\s*(?:\((?P<branches>.*)\)\s*)?(?P<time>.*)$`
applied at the start of the line (the pattern is anchored by `^`).
Returns the spans of the `commit`, `author`, optional `branches`, and
`time` groups. -/
def matchLogLine (L : List Char) : Option (Span × Span × Option Span × Span) :=
  tryFrom (fun k =>
    match L.get? k with
    | some c => if c == 'o' || c == '*' then stAfterGlyph L (k + 1) else none
    | none => none)
    (maxRun graphCls L 0)

/-- The `LogLineElement` named tuple of the source: a captured field's
text together with its `(start, stop)` span in the subject line. -/
structure LogLineElement where
  text : List Char
  coordinates : Nat × Nat
deriving DecidableEq, Repr

/-- The dictionary returned by `get_elements_from_log_line`: one optional
entry per named group of the extraction pattern. -/
structure ExtractedFields where
  commit : Option LogLineElement
  author : Option LogLineElement
  branches : Option LogLineElement
  time : Option LogLineElement
deriving DecidableEq, Repr

/-- The text of `L` covered by span `s` (Python's `L[s.start:s.stop]`). -/
def spanText (L : List Char) (s : Span) : List Char :=
  (L.drop s.start).take (s.stop - s.start)

/-- Build a `LogLineElement` from a span, mirroring the source's
`if group_dict[key]` truthiness filter: an empty captured text is not
added to the dictionary. -/
def toElem? (L : List Char) (s : Span) : Option LogLineElement :=
  let t := spanText L s
  if t.isEmpty then none else some ⟨t, (s.start, s.stop)⟩

/-- Source function `get_elements_from_log_line`: apply the extraction
pattern; on a match, return the non-empty named groups with their spans;
on no match, return the empty field set. -/
def get_elements_from_log_line (L : List Char) : ExtractedFields :=
  match matchLogLine L with
  | none => ⟨none, none, none, none⟩
  | some (c, a, b, t) =>
    ⟨toElem? L c, toElem? L a, b.bind (fun s => toElem? L s), toElem? L t⟩

/-- Source function `is_commit_line`: `re.match` of `^[\|\:\s]*[o\*]`. -/
def is_commit_line (L : List Char) : Bool :=
  (tryFrom (fun k =>
    match L.get? k with
    | some c => if c == 'o' || c == '*' then some k else none
    | none => none)
    (maxRun graphCls L 0)).isSome

/-- Source function `is_current_checkout`: `re.match` of `^[\|\:\s]*\*`. -/
def is_current_checkout (L : List Char) : Bool :=
  (tryFrom (fun k =>
    match L.get? k with
    | some c => if c == '*' then some k else none
    | none => none)
    (maxRun graphCls L 0)).isSome

/-- Source function `get_commit_lines_indices`: the indices of the lines
classified as commit rows. -/
def get_commit_lines_indices (lines : List (List Char)) : List Nat :=
  (List.range lines.length).filter (fun i => is_commit_line (lines.getD i []))

/-- Python's `list.index` restricted to a predicate: the index of the
first element satisfying `p`, or `none` (Python raises `ValueError`). -/
def listIndex? {α : Type} (p : α → Bool) : List α → Option Nat
  | [] => none
  | a :: l => if p a then some 0 else (listIndex? p l).map (· + 1)

/-- The remote-tracking prefix `"origin/"`. -/
def originPfx : List Char := String.data "origin/"

/-- Source function `get_commit_or_branch_name`: re-sanitize and strip the
line, extract its fields; prefer a non-remote branch from the `branches`
group, else the first branch, else the `commit` text; `none` models the
`ValueError` raised when neither group is present. -/
def get_commit_or_branch_name (log_line : List Char) : Option (List Char) :=
  let line := pyStrip (remove_colors log_line)
  let elements := get_elements_from_log_line line
  match elements.branches with
  | some br =>
    let branches := (br.text.splitOn ',').map pyStrip
    let local_branches := branches.filter (fun bb => !(originPfx.isPrefixOf bb))
    some (match local_branches with
          | [] => branches.headD []
          | bb :: _ => bb)
  | none =>
    match elements.commit with
    | some c => some c.text
    | none => none

/-- Modelled from the spec's words (Selection Resolver, §4.4): split the
branches text on commas, trim each token, return the first token that
does not start with `origin/`, or the first token when all do.  Used only
to compare the source's resolver against the specified behaviour. -/
def resolveSpecBranches (bs : List Char) : List Char :=
  let tokens := (bs.splitOn ',').map pyStrip
  match tokens.find? (fun tk => !(originPfx.isPrefixOf tk)) with
  | some tk => tk
  | none => tokens.headD []

/-- The navigation input events of the event loop (arrow keys). -/
inductive NavEvent where
  | up
  | down
deriving DecidableEq, Repr

/-- One step of the event loop's cursor update for a row count `n`:
`KEY_UP` decrements when the cursor is positive, `KEY_DOWN` increments
when the cursor is below `n - 1`. -/
def navStep (n : Nat) (c : Nat) : NavEvent → Nat
  | NavEvent.up => if 0 < c then c - 1 else c
  | NavEvent.down => if c < n - 1 then c + 1 else c

/-- Outcome of the Enter branch of the event loop: the resolver is called
first; if it raises, the error propagates (`error`); otherwise a checkout
is requested only when the cursor differs from the starting checkout. -/
inductive ConfirmOutcome where
  | noop
  | checkout (ref : List Char)
  | error
deriving DecidableEq, Repr

/-- The Enter branch of the event loop on the selected row's text:
`ref = get_commit_or_branch_name(...)` is evaluated before the
`current_checkout != current_line` test. -/
def confirmOutcome (log_line : List Char) (current_checkout current_line : Nat) :
    ConfirmOutcome :=
  match get_commit_or_branch_name log_line with
  | none => ConfirmOutcome.error
  | some ref =>
    if current_checkout ≠ current_line then ConfirmOutcome.checkout ref
    else ConfirmOutcome.noop

/-- Startup: index (into the raw line list) of the current-checkout row,
as computed by the source via a list comprehension and `list.index`. -/
def startup_checkout_line_index (smartlog : List (List Char)) : Option Nat :=
  match (smartlog.filter is_current_checkout).head? with
  | none => none
  | some v => listIndex? (fun l => l == v) smartlog

/-- Startup: initial cursor, the position of the current-checkout row
within `commit_lines_indices` (the source's `commit_lines_indices.index`). -/
def initial_cursor (smartlog : List (List Char)) : Option Nat :=
  match startup_checkout_line_index smartlog with
  | none => none
  | some j => listIndex? (fun i => i == j) (get_commit_lines_indices smartlog)

/-- Validity of one returned field against its subject line: offsets are
an ordered pair of positions within the line, and slicing the line at the
span yields exactly the captured text. -/
def fieldOk (L : List Char) (e : LogLineElement) : Prop :=
  e.coordinates.1 ≤ e.coordinates.2 ∧ e.coordinates.2 ≤ L.length ∧
  spanText L ⟨e.coordinates.1, e.coordinates.2⟩ = e.text

/-- Non-overlap of the spans of two fields on the same line. -/
def elemsDisjoint (e f : LogLineElement) : Prop :=
  e.coordinates.2 ≤ f.coordinates.1 ∨ f.coordinates.2 ≤ e.coordinates.1

/-- Formalization of the claim that a captured field is a whitespace-
delimited token of the line: nonempty, free of whitespace, and bounded on
the left by whitespace, a graph-prefix character, a node glyph, or the
line start, and on the right by whitespace or the line end. -/
def maximalToken (L : List Char) (e : LogLineElement) : Prop :=
  e.text ≠ [] ∧ (∀ ch ∈ e.text, isPySpace ch = false) ∧
  (e.coordinates.1 = 0 ∨
    (L.get? (e.coordinates.1 - 1)).any
      (fun ch => isPySpace ch || ch == 'o' || ch == '*' || ch == '|' || ch == ':') = true) ∧
  (e.coordinates.2 = L.length ∨ (L.get? e.coordinates.2).any isPySpace = true)

/-! ## Helper lemmas about the backtracking combinators -/

/-- Inversion for `tryFrom`: a successful greedy search succeeded at some
consumption count not exceeding the bound. -/
lemma tryFrom_eq_some {α : Type} {f : Nat → Option α} {k : Nat} {r : α}
    (h : tryFrom f k = some r) : ∃ i, i ≤ k ∧ f i = some r := by
  induction k with
  | zero => exact ⟨0, Nat.le_refl 0, h⟩
  | succ k ih =>
    simp only [tryFrom] at h
    split at h
    · next heq => exact ⟨k + 1, Nat.le_refl _, by rw [heq, h]⟩
    · obtain ⟨i, hi, hf⟩ := ih h
      exact ⟨i, Nat.le_trans hi (Nat.le_succ k), hf⟩

/-- Inversion for `tryFromPlus`: success happened at a positive count. -/
lemma tryFromPlus_eq_some {α : Type} {f : Nat → Option α} {k : Nat} {r : α}
    (h : tryFromPlus f k = some r) : ∃ i, 1 ≤ i ∧ i ≤ k ∧ f i = some r := by
  induction k with
  | zero => simp [tryFromPlus] at h
  | succ k ih =>
    simp only [tryFromPlus] at h
    split at h
    · next heq => exact ⟨k + 1, Nat.succ_le_succ (Nat.zero_le k), Nat.le_refl _, by rw [heq, h]⟩
    · obtain ⟨i, h1, hi, hf⟩ := ih h
      exact ⟨i, h1, Nat.le_trans hi (Nat.le_succ k), hf⟩

/-- If the greedy attempt at the bound itself succeeds, `tryFrom` returns it. -/
lemma tryFrom_top {α : Type} {f : Nat → Option α} {k : Nat} {r : α}
    (h : f k = some r) : tryFrom f k = some r := by
  cases k with
  | zero => exact h
  | succ k => simp only [tryFrom, h]

/-- Elements inside a `takeWhile` prefix satisfy the predicate, and exist. -/
lemma takeWhile_get? {α : Type} {p : α → Bool} {l : List α} {i : Nat}
    (h : i < (l.takeWhile p).length) : ∃ a, l.get? i = some a ∧ p a = true := by
  induction l generalizing i with
  | nil => simp [List.takeWhile] at h
  | cons c tl ih =>
    by_cases hp : p c
    · rw [List.takeWhile_cons, if_pos hp] at h
      cases i with
      | zero => exact ⟨c, rfl, hp⟩
      | succ i => exact ih (Nat.lt_of_succ_lt_succ h)
    · rw [List.takeWhile_cons, if_neg hp] at h
      simp at h

/-- The `takeWhile` prefix is no longer than the list. -/
lemma takeWhile_length_le {α : Type} (p : α → Bool) (l : List α) :
    (l.takeWhile p).length ≤ l.length := by
  induction l with
  | nil => simp [List.takeWhile]
  | cons c tl ih =>
    rw [List.takeWhile_cons]
    split
    · simpa using Nat.succ_le_succ ih
    · simp

/-- The value of `maxRun` never exceeds the number of characters after `pos`. -/
lemma maxRun_le (p : Char → Bool) (L : List Char) (pos : Nat) :
    maxRun p L pos ≤ L.length - pos := by
  unfold maxRun
  have := takeWhile_length_le p (L.drop pos)
  simpa [List.length_drop] using this

/-- Characters strictly inside a run bounded by `maxRun` satisfy the class. -/
lemma maxRun_char {p : Char → Bool} {L : List Char} {pos k i : Nat}
    (hk : k ≤ maxRun p L pos) (hi : i < k) :
    ∃ ch, L.get? (pos + i) = some ch ∧ p ch = true := by
  have h : i < ((L.drop pos).takeWhile p).length := Nat.lt_of_lt_of_le hi hk
  obtain ⟨a, ha, hpa⟩ := takeWhile_get? h
  rw [List.get?_drop] at ha
  exact ⟨a, ha, hpa⟩

/-- A defined `get?` index is inside the list. -/
lemma get?_lt_length {α : Type} {l : List α} {i : Nat} {a : α}
    (h : l.get? i = some a) : i < l.length := by
  obtain ⟨hlt, -⟩ := List.get?_eq_some.mp h
  exact hlt

/-- Every character of a span's text occurs in the line at an index
inside the span. -/
lemma mem_spanText {L : List Char} {s : Span} {ch : Char}
    (h : ch ∈ spanText L s) : ∃ i, s.start ≤ i ∧ i < s.stop ∧ L.get? i = some ch := by
  unfold spanText at h
  obtain ⟨n, hn⟩ := List.mem_iff_get?.mp h
  have hlen : n < ((L.drop s.start).take (s.stop - s.start)).length := get?_lt_length hn
  have hnk : n < s.stop - s.start := by
    have := List.length_take_le (s.stop - s.start) (L.drop s.start)
    omega
  rw [List.get?_take hnk, List.get?_drop] at hn
  exact ⟨s.start + n, Nat.le_add_right _ _, by omega, hn⟩

/-! ## Lemmas about the sanitizer -/

/-- On a list without any ESC byte, the sanitizer worker keeps every
character, whatever the fuel. -/
lemma rcGo_no_esc {l : List Char} (h : escChar ∉ l) : ∀ n : Nat, rcGo n l = l := by
  induction l with
  | nil => intro n; cases n <;> rfl
  | cons c rest ih =>
    intro n
    have hc : c ≠ escChar := fun hc => h (hc ▸ List.mem_cons_self c rest)
    have hrest : escChar ∉ rest := fun hr => h (List.mem_cons_of_mem c hr)
    cases n with
    | zero => rfl
    | succ n => simp only [rcGo, if_neg hc, ih hrest n]

/-- On a line without any ESC byte, `remove_colors` is the identity. -/
lemma remove_colors_no_esc {l : List Char} (h : escChar ∉ l) :
    remove_colors l = l := rcGo_no_esc h l.length

/-! ## Claim theorems -/

/-- C3 counterexample: sanitization is not idempotent.  On the input
ESC ESC `[m[m`, the first pass removes the inner escape sequence and
leaves ESC `[m`, which a second pass removes entirely. -/
theorem sanitize_idempotent_counterexample :
    remove_colors (remove_colors (String.data "\x1b\x1b[m[m")) ≠
      remove_colors (String.data "\x1b\x1b[m[m") ∧
    remove_colors (String.data "\x1b\x1b[m[m") = [escChar, '[', 'm'] ∧
    remove_colors (remove_colors (String.data "\x1b\x1b[m[m")) = [] := by
  decide

/-- C3 (amended): sanitization is idempotent on every input whose
sanitized form contains no remaining ESC byte; in general a second pass
can remove escape sequences assembled by the first pass's deletions. -/
theorem sanitize_idempotent_amended (x : List Char)
    (h : escChar ∉ remove_colors x) :
    remove_colors (remove_colors x) = remove_colors x :=
  remove_colors_no_esc h

/-- C3 witness: a concrete colored line whose sanitized form is clean. -/
theorem sanitize_idempotent_witness :
    remove_colors (remove_colors (String.data "a\x1b[31mb")) =
      remove_colors (String.data "a\x1b[31mb") :=
  sanitize_idempotent_amended (String.data "a\x1b[31mb") (by decide)

/-- One navigation step keeps the cursor below the row count. -/
lemma navStep_lt {n c : Nat} (e : NavEvent) (hn : 1 ≤ n) (hc : c < n) :
    navStep n c e < n := by
  cases e <;> simp only [navStep] <;> split <;> omega

/-- C6: `MoveUp` decrements with a floor of 0, `MoveDown` increments with
a cap of `n - 1`, the cursor stays in `[0, n)` under any event sequence,
and the spec's concrete nine-step examples hold for `n = 5`. -/
theorem nav_bounds (n c : Nat) (hn : 1 ≤ n) (hc : c < n) :
    (0 < c → navStep n c NavEvent.up = c - 1) ∧
    (c = 0 → navStep n c NavEvent.up = 0) ∧
    (c < n - 1 → navStep n c NavEvent.down = c + 1) ∧
    (c = n - 1 → navStep n c NavEvent.down = n - 1) ∧
    (∀ evs : List NavEvent, List.foldl (navStep n) c evs < n) ∧
    List.foldl (navStep 5) 2 (List.replicate 9 NavEvent.up) = 0 ∧
    List.foldl (navStep 5) 2 (List.replicate 9 NavEvent.down) = 4 := by
  refine ⟨?_, ?_, ?_, ?_, ?_, by decide, by decide⟩
  · intro h; simp only [navStep, if_pos h]
  · intro h; subst h; rfl
  · intro h; simp only [navStep, if_pos h]
  · intro h; subst h; simp only [navStep]; split <;> omega
  · intro evs
    induction evs generalizing c with
    | nil => exact hc
    | cons e evs ih => exact ih (c := navStep n c e) (navStep_lt e hn hc)

/-- C6 witness: the bound instantiated at the spec's example. -/
theorem nav_bounds_witness :
    List.foldl (navStep 5) 2 (List.replicate 9 NavEvent.up) = 0 :=
  (nav_bounds 5 2 (by decide) (by decide)).2.2.2.2.2.1

/-- C2 (amended): when the cursor equals the starting checkout index at
`Confirm`, no checkout is ever requested; the session is a clean no-op
exactly when the Selection Resolver succeeds on the selected row, and it
ends with an unresolvable-reference error when the resolver fails (the
resolver runs before the cursor comparison). -/
theorem noop_confirm_amended (line : List Char) (cc : Nat) :
    (∀ r, confirmOutcome line cc cc ≠ ConfirmOutcome.checkout r) ∧
    (∀ r, get_commit_or_branch_name line = some r →
      confirmOutcome line cc cc = ConfirmOutcome.noop) ∧
    (get_commit_or_branch_name line = none →
      confirmOutcome line cc cc = ConfirmOutcome.error) := by
  refine ⟨?_, ?_, ?_⟩
  · intro r
    unfold confirmOutcome
    cases h : get_commit_or_branch_name line <;> simp
  · intro r h
    unfold confirmOutcome
    rw [h]
    simp
  · intro h
    unfold confirmOutcome
    rw [h]

/-- C2 counterexample: a session whose current-checkout row is the bare
glyph `*` (a malformed commit row).  The row is selectable, the initial
cursor is 0, and confirming it with the cursor still at the starting
checkout ends in an error, not a no-op, because the resolver is invoked
before the no-op test. -/
theorem noop_confirm_counterexample :
    get_commit_lines_indices [String.data "*"] = [0] ∧
    initial_cursor [String.data "*"] = some 0 ∧
    confirmOutcome (String.data "*") 0 0 = ConfirmOutcome.error ∧
    confirmOutcome (String.data "*") 0 0 ≠ ConfirmOutcome.noop := by
  decide

/-- C2 witness: a well-formed row confirmed at the starting checkout is a
no-op. -/
theorem noop_confirm_witness :
    confirmOutcome (String.data "o a b") 0 0 = ConfirmOutcome.noop :=
  (noop_confirm_amended (String.data "o a b") 0).2.1 (String.data "a") (by decide)

/-- C5: when the extraction pattern does not match the processed row, the
Field Extractor returns the empty field set, the Selection Resolver fails
(the source's `ValueError`), confirming such a row ends in an error with
no checkout ever requested, and a commit-classified row is selectable
(member of `commit_lines_indices`) regardless of extraction. -/
theorem malformed_row_behavior (line : List Char) (cc cl : Nat)
    (h : matchLogLine (pyStrip (remove_colors line)) = none) :
    get_elements_from_log_line (pyStrip (remove_colors line)) =
      ⟨none, none, none, none⟩ ∧
    get_commit_or_branch_name line = none ∧
    confirmOutcome line cc cl = ConfirmOutcome.error ∧
    (∀ lines : List (List Char), ∀ i, i < lines.length →
      is_commit_line (lines.getD i []) = true →
      i ∈ get_commit_lines_indices lines) := by
  have he : get_elements_from_log_line (pyStrip (remove_colors line)) =
      ⟨none, none, none, none⟩ := by
    unfold get_elements_from_log_line
    rw [h]
  have hr : get_commit_or_branch_name line = none := by
    simp only [get_commit_or_branch_name, he]
  refine ⟨he, hr, ?_, ?_⟩
  · unfold confirmOutcome
    rw [hr]
  · intro lines i hi hcl
    simp only [get_commit_lines_indices, List.mem_filter, List.mem_range]
    exact ⟨hi, hcl⟩

/-- C5 witness: the bare glyph `o` is a commit row on which extraction
fails; confirming it yields an error and no checkout. -/
theorem malformed_row_behavior_witness :
    get_commit_or_branch_name (String.data "o") = none ∧
    confirmOutcome (String.data "o") 0 1 = ConfirmOutcome.error :=
  ⟨(malformed_row_behavior (String.data "o") 0 1 (by decide)).2.1,
   (malformed_row_behavior (String.data "o") 0 1 (by decide)).2.2.1⟩

/-- C7: on a row whose extracted fields contain no `branches` entry, the
resolver returns the `commit` field's text verbatim when present, and
fails (the source's `ValueError`) when neither field is present. -/
theorem resolver_no_branches (line : List Char) :
    ((get_elements_from_log_line (pyStrip (remove_colors line))).branches = none →
      ∀ e, (get_elements_from_log_line (pyStrip (remove_colors line))).commit = some e →
      get_commit_or_branch_name line = some e.text) ∧
    ((get_elements_from_log_line (pyStrip (remove_colors line))).branches = none →
      (get_elements_from_log_line (pyStrip (remove_colors line))).commit = none →
      get_commit_or_branch_name line = none) := by
  constructor
  · intro hb e hc
    simp only [get_commit_or_branch_name, hb, hc]
  · intro hb hc
    simp only [get_commit_or_branch_name, hb, hc]

/-- C7 witness: a branchless row resolves to its commit id, and a row
with neither field fails. -/
theorem resolver_no_branches_witness :
    get_commit_or_branch_name (String.data "o abc alice 2 hours ago") =
      some (String.data "abc") ∧
    get_commit_or_branch_name (String.data "| |") = none :=
  ⟨(resolver_no_branches (String.data "o abc alice 2 hours ago")).1 (by decide)
      ⟨String.data "abc", (2, 5)⟩ (by decide),
   (resolver_no_branches (String.data "| |")).2 (by decide) (by decide)⟩


/-! ## Characterization of the two classifier patterns -/

/-- The head of a dropped list is the element at the dropped count. -/
lemma head?_drop {α : Type} (l : List α) (n : Nat) :
    (l.drop n).head? = l.get? n := by
  have h := List.get?_drop l n 0
  rw [Nat.add_zero] at h
  rw [← h]
  cases l.drop n <;> rfl

/-- The character right after the maximal graph-prefix run is the head of
`dropWhile graphCls`. -/
lemma get?_maxRun_graphCls (L : List Char) :
    L.get? (maxRun graphCls L 0) = (L.dropWhile graphCls).head? := by
  have hsplit : L.takeWhile graphCls ++ L.dropWhile graphCls = L :=
    List.takeWhile_append_dropWhile graphCls L
  have hdrop : L.drop ((L.takeWhile graphCls).length) = L.dropWhile graphCls := by
    calc L.drop ((L.takeWhile graphCls).length)
        = (L.takeWhile graphCls ++ L.dropWhile graphCls).drop
            ((L.takeWhile graphCls).length) := by rw [hsplit]
      _ = L.dropWhile graphCls := List.drop_left _ _
  have hrun : maxRun graphCls L 0 = (L.takeWhile graphCls).length := by
    simp [maxRun]
  rw [hrun, ← hdrop, head?_drop]

/-- Both classifier patterns share the shape `^[\|\:\s]*G` for a glyph
class `G` disjoint from the prefix class: such a pattern matches exactly
when the first character after the maximal graph-prefix run is in `G`. -/
lemma classifier_eq (gl : Char → Bool) (L : List Char)
    (hgl : ∀ c, gl c = true → graphCls c = false) :
    (tryFrom (fun k =>
      match L.get? k with
      | some c => if gl c then some k else none
      | none => none)
      (maxRun graphCls L 0)).isSome = (L.dropWhile graphCls).head?.any gl := by
  have hget : L.get? (maxRun graphCls L 0) = (L.dropWhile graphCls).head? :=
    get?_maxRun_graphCls L
  have hfwd : (tryFrom (fun k =>
      match L.get? k with
      | some c => if gl c then some k else none
      | none => none) (maxRun graphCls L 0)).isSome = true →
      (L.dropWhile graphCls).head?.any gl = true := by
    intro hs
    obtain ⟨r, hr⟩ := Option.isSome_iff_exists.mp hs
    obtain ⟨i, hi, hf⟩ := tryFrom_eq_some hr
    cases hg : L.get? i with
    | none => rw [hg] at hf; simp at hf
    | some c =>
      rw [hg] at hf
      by_cases hglc : gl c = true
      · have hcls : graphCls c = false := hgl c hglc
        have hieq : i = maxRun graphCls L 0 := by
          rcases Nat.lt_or_ge i (maxRun graphCls L 0) with hlt | hge
          · exfalso
            obtain ⟨a, ha, hpa⟩ := maxRun_char (Nat.le_refl (maxRun graphCls L 0)) hlt
            rw [Nat.zero_add, hg] at ha
            cases ha
            rw [hcls] at hpa
            exact Bool.false_ne_true hpa
          · omega
        rw [hieq, hget] at hg
        rw [hg, Option.any_some, hglc]
      · simp [hglc] at hf
  have hbwd : (L.dropWhile graphCls).head?.any gl = true →
      (tryFrom (fun k =>
        match L.get? k with
        | some c => if gl c then some k else none
        | none => none) (maxRun graphCls L 0)).isSome = true := by
    intro ha
    cases hh : (L.dropWhile graphCls).head? with
    | none => rw [hh] at ha; simp at ha
    | some c =>
      rw [hh, Option.any_some] at ha
      have hf : (fun k =>
          match L.get? k with
          | some c => if gl c then some k else none
          | none => none) (maxRun graphCls L 0) = some (maxRun graphCls L 0) := by
        simp only
        rw [hget, hh]
        simp only [ha, if_pos]
      rw [tryFrom_top (f := fun k =>
          match L.get? k with
          | some c => if gl c then some k else none
          | none => none) hf]
      rfl
  cases hx : (tryFrom (fun k =>
      match L.get? k with
      | some c => if gl c then some k else none
      | none => none) (maxRun graphCls L 0)).isSome with
  | true => exact (hfwd hx).symm
  | false =>
    cases hy : (L.dropWhile graphCls).head?.any gl with
    | true => rw [hbwd hy] at hx; exact absurd hx (by simp)
    | false => rfl

/-- Classification: `is_commit_line` tests whether the first character after the maximal
run of graph-prefix characters is a node glyph (`o` or `*`). -/
lemma is_commit_line_eq (L : List Char) :
    is_commit_line L =
      (L.dropWhile graphCls).head?.any (fun c => c == 'o' || c == '*') := by
  unfold is_commit_line
  exact classifier_eq (fun c => c == 'o' || c == '*') L (by
    intro c hc
    rcases Bool.or_eq_true_iff.mp hc with h1 | h1
    · rw [eq_of_beq h1]; decide
    · rw [eq_of_beq h1]; decide)

/-- Classification: `is_current_checkout` tests whether the first character after the
maximal run of graph-prefix characters is the `*` glyph. -/
lemma is_current_checkout_eq (L : List Char) :
    is_current_checkout L =
      (L.dropWhile graphCls).head?.any (fun c => c == '*') := by
  unfold is_current_checkout
  exact classifier_eq (fun c => c == '*') L (by
    intro c hc
    rw [eq_of_beq hc]; decide)

/-- Dropping a satisfying prefix commutes with concatenation. -/
lemma dropWhile_all_append {p : Char → Bool} {xs s : List Char}
    (h : ∀ ch ∈ xs, p ch = true) :
    (xs ++ s).dropWhile p = s.dropWhile p := by
  induction xs with
  | nil => rfl
  | cons c tl ih =>
    have hc : p c = true := h c (List.mem_cons_self c tl)
    rw [List.cons_append, List.dropWhile_cons, if_pos hc]
    exact ih (fun ch hch => h ch (List.mem_cons_of_mem c hch))

/-- C9: prepending graph-prefix characters never changes the commit-row
classification. -/
theorem classifier_monotone (s p : List Char)
    (h : ∀ ch ∈ p, graphCls ch = true) :
    is_commit_line (p ++ s) = is_commit_line s := by
  rw [is_commit_line_eq, is_commit_line_eq, dropWhile_all_append h]

/-- C9 witness: a concrete prefix of pipes, colons and spaces. -/
theorem classifier_monotone_witness :
    is_commit_line (String.data "| : " ++ String.data "o x y") =
      is_commit_line (String.data "o x y") :=
  classifier_monotone (String.data "o x y") (String.data "| : ") (by decide)

/-- Function `listIndex?` finds an index when some element satisfies the predicate,
and the element found there satisfies it. -/
lemma listIndex?_spec {α : Type} {p : α → Bool} {l : List α}
    (h : ∃ x ∈ l, p x = true) :
    ∃ j x, listIndex? p l = some j ∧ l.get? j = some x ∧ p x = true := by
  induction l with
  | nil => simp at h
  | cons a tl ih =>
    by_cases hp : p a = true
    · exact ⟨0, a, by simp [listIndex?, hp], rfl, hp⟩
    · obtain ⟨x, hx, hpx⟩ := h
      rcases List.mem_cons.mp hx with rfl | hxtl
      · exact absurd hpx hp
      · obtain ⟨j, y, hj, hget, hpy⟩ := ih ⟨x, hxtl, hpx⟩
        exact ⟨j + 1, y, by simp [listIndex?, hp, hj], hget, hpy⟩

/-- C10: the current-checkout predicate implies the commit-row predicate;
hence whenever some line is the current checkout, startup finds its raw
index, that index is in the commit-row index list, and the initial cursor
is a valid index into that list. -/
theorem current_checkout_is_commit_row :
    (∀ L : List Char, is_current_checkout L = true → is_commit_line L = true) ∧
    (∀ smartlog : List (List Char),
      (∃ l ∈ smartlog, is_current_checkout l = true) →
      ∃ j c, startup_checkout_line_index smartlog = some j ∧
        j ∈ get_commit_lines_indices smartlog ∧
        initial_cursor smartlog = some c ∧
        c < (get_commit_lines_indices smartlog).length) := by
  have himp : ∀ L : List Char, is_current_checkout L = true → is_commit_line L = true := by
    intro L h
    rw [is_current_checkout_eq] at h
    rw [is_commit_line_eq]
    cases hh : (L.dropWhile graphCls).head? with
    | none => rw [hh] at h; simp at h
    | some ch =>
      rw [hh] at h
      simp at h ⊢
      exact Or.inr h
  refine ⟨himp, ?_⟩
  intro smartlog hex
  -- the filtered list is non-empty
  cases hfil : smartlog.filter is_current_checkout with
  | nil =>
    exfalso
    obtain ⟨l, hl, hp⟩ := hex
    exact (List.filter_eq_nil.mp hfil) l hl (by simp [hp])
  | cons v tl =>
    have hvmem : v ∈ smartlog.filter is_current_checkout := by
      rw [hfil]; exact List.mem_cons_self v tl
    obtain ⟨hvsl, hvp⟩ := List.mem_filter.mp hvmem
    -- the raw index j of the first line equal to v
    obtain ⟨j, x, hj, hget, hbeq⟩ :=
      listIndex?_spec (l := smartlog) (p := fun l => l == v) ⟨v, hvsl, by simp⟩
    have hxv : x = v := by simpa using hbeq
    subst hxv
    have hjidx : startup_checkout_line_index smartlog = some j := by
      unfold startup_checkout_line_index
      rw [hfil]
      exact hj
    have hjlt : j < smartlog.length := get?_lt_length hget
    have hgetD : smartlog.getD j [] = x := by
      rw [List.getD_eq_get?, hget]
      rfl
    have hjmem : j ∈ get_commit_lines_indices smartlog := by
      simp only [get_commit_lines_indices, List.mem_filter, List.mem_range]
      exact ⟨hjlt, by rw [hgetD]; exact himp x hvp⟩
    obtain ⟨c, y, hc, hcget, hcbeq⟩ :=
      listIndex?_spec (l := get_commit_lines_indices smartlog)
        (p := fun i => i == j) ⟨j, hjmem, by simp⟩
    refine ⟨j, c, hjidx, hjmem, ?_, get?_lt_length hcget⟩
    unfold initial_cursor
    rw [hjidx]
    exact hc

/-- C10 witness: a two-row log whose second row is the current checkout. -/
theorem current_checkout_is_commit_row_witness :
    ∃ j c, startup_checkout_line_index
        [String.data "o a b", String.data "| *  x y"] = some j ∧
      j ∈ get_commit_lines_indices
        [String.data "o a b", String.data "| *  x y"] ∧
      initial_cursor [String.data "o a b", String.data "| *  x y"] = some c ∧
      c < (get_commit_lines_indices
        [String.data "o a b", String.data "| *  x y"]).length :=
  current_checkout_is_commit_row.2
    [String.data "o a b", String.data "| *  x y"]
    ⟨String.data "| *  x y", by decide, by decide⟩

/-- The first element satisfying `p` is the head of the filtered list. -/
lemma find?_eq_head?_filter {α : Type} (p : α → Bool) (l : List α) :
    l.find? p = (l.filter p).head? := by
  induction l with
  | nil => rfl
  | cons a tl ih =>
    by_cases hp : p a = true
    · rw [List.find?_cons_of_pos tl hp, List.filter_cons, if_pos hp]
      rfl
    · rw [List.find?_cons_of_neg tl hp, List.filter_cons, if_neg hp]
      exact ih

/-- C1: on a row whose extracted fields contain a `branches` entry, the
resolver returns exactly what the spec describes (split on commas, strip
each token, first non-`origin/` token, else the first token); in
particular the two concrete preferences from the spec hold. -/
theorem resolver_branch_preference :
    (∀ line : List Char, ∀ br : LogLineElement,
      (get_elements_from_log_line (pyStrip (remove_colors line))).branches = some br →
      get_commit_or_branch_name line = some (resolveSpecBranches br.text)) ∧
    get_commit_or_branch_name
      (String.data "o abc alice (origin/main, feature-x) 2 hours ago") =
      some (String.data "feature-x") ∧
    get_commit_or_branch_name
      (String.data "o abc alice (origin/main, origin/release) 2 hours ago") =
      some (String.data "origin/main") ∧
    resolveSpecBranches (String.data "origin/main, feature-x") =
      String.data "feature-x" ∧
    resolveSpecBranches (String.data "origin/main, origin/release") =
      String.data "origin/main" := by
  refine ⟨?_, by decide, by decide, by decide, by decide⟩
  intro line br hb
  simp only [get_commit_or_branch_name, hb, resolveSpecBranches]
  rw [find?_eq_head?_filter]
  cases hfil : ((br.text.splitOn ',').map pyStrip).filter
      (fun bb => !(originPfx.isPrefixOf bb)) with
  | nil => rfl
  | cons bb tl => rfl

/-- C1 witness: the spec-level resolver agrees with the source's resolver
on a concrete row carrying a remote and a local branch. -/
theorem resolver_branch_preference_witness :
    get_commit_or_branch_name
      (String.data "o abc alice (origin/main, feature-x) 2 hours ago") =
      some (resolveSpecBranches (String.data "origin/main, feature-x")) :=
  resolver_branch_preference.1
    (String.data "o abc alice (origin/main, feature-x) 2 hours ago")
    ⟨String.data "origin/main, feature-x", (13, 35)⟩ (by decide)

/-! ## Shape of a successful extraction match -/

/-- Inversion for the `time` stage: the span starts where the stage
started and ends inside the line. -/
lemma stTime_inv {L : List Char} {pos : Nat} {t : Span}
    (h : stTime L pos = some t) :
    t.start = pos ∧ t.start ≤ t.stop ∧ t.stop ≤ L.length := by
  obtain ⟨k, hk, hf⟩ := tryFrom_eq_some h
  have hf' : (if matchEnd L (pos + k) = true then some (⟨pos, pos + k⟩ : Span)
      else none) = some t := hf
  by_cases hm : matchEnd L (pos + k) = true
  · rw [if_pos hm] at hf'
    injection hf' with ht
    simp only [matchEnd, Bool.or_eq_true, beq_iff_eq, Bool.and_eq_true] at hm
    have hbound : pos + k ≤ L.length := by rcases hm with hm | ⟨hm, -⟩ <;> omega
    rw [← ht]
    exact ⟨rfl, Nat.le_add_right pos k, hbound⟩
  · rw [if_neg hm] at hf'
    cases hf'

/-- Inversion for the `branches` stage: the branches span starts at the
stage start, ends at a parenthesis strictly before the time span, and the
time span is well-formed. -/
lemma stBranches_inv {L : List Char} {pos : Nat} {b t : Span}
    (h : stBranches L pos = some (b, t)) :
    b.start = pos ∧ b.start ≤ b.stop ∧ b.stop < t.start ∧
    t.start ≤ t.stop ∧ t.stop ≤ L.length := by
  obtain ⟨k, hk, hf⟩ := tryFrom_eq_some h
  have hf' : (if L.get? (pos + k) == some ')' then
      tryFrom (fun j =>
        (stTime L (pos + k + 1 + j)).map (fun u => (⟨pos, pos + k⟩, u)))
        (maxRun isPySpace L (pos + k + 1))
    else none) = some (b, t) := hf
  by_cases hc : (L.get? (pos + k) == some ')') = true
  · rw [if_pos hc] at hf'
    obtain ⟨j, hj, hf2⟩ := tryFrom_eq_some hf'
    have hf2' : (stTime L (pos + k + 1 + j)).map
        (fun u => ((⟨pos, pos + k⟩ : Span), u)) = some (b, t) := hf2
    obtain ⟨u, hu, heq⟩ := Option.map_eq_some'.mp hf2'
    injection heq with h1 h2
    subst h1
    subst h2
    obtain ⟨hst, hle, hlen⟩ := stTime_inv hu
    refine ⟨rfl, Nat.le_add_right pos k, ?_, hle, hlen⟩
    show pos + k < u.start
    omega
  · rw [if_neg hc] at hf'
    cases hf'

/-- Inversion for the post-author stage: the time span sits at or after
the stage start, and a branches span (when present) sits strictly between
the stage start and the time span. -/
lemma stAfterAuthor_inv {L : List Char} {pos : Nat} {b : Option Span} {t : Span}
    (h : stAfterAuthor L pos = some (b, t)) :
    pos ≤ t.start ∧ t.start ≤ t.stop ∧ t.stop ≤ L.length ∧
    (∀ bs, b = some bs → pos < bs.start ∧ bs.start ≤ bs.stop ∧ bs.stop < t.start) := by
  obtain ⟨j, hj, hf⟩ := tryFrom_eq_some h
  have hf' : (match (if L.get? (pos + j) == some '(' then
        stBranches L (pos + j + 1) else none) with
    | some (b0, t0) => some (some b0, t0)
    | none => (stTime L (pos + j)).map (fun u => ((none : Option Span), u)))
      = some (b, t) := hf
  cases hbr : (if L.get? (pos + j) == some '(' then
      stBranches L (pos + j + 1) else none) with
  | some p0 =>
    obtain ⟨b0, t0⟩ := p0
    rw [hbr] at hf'
    have hf'' : some (some b0, t0) = some (b, t) := hf'
    injection hf'' with h1
    injection h1 with hb ht
    subst hb
    rw [← ht]
    have hbr' : stBranches L (pos + j + 1) = some (b0, t0) := by
      by_cases hc : (L.get? (pos + j) == some '(') = true
      · rw [if_pos hc] at hbr; exact hbr
      · rw [if_neg hc] at hbr; cases hbr
    obtain ⟨hbs, hbl, hbt, htl, htlen⟩ := stBranches_inv hbr'
    refine ⟨by omega, htl, htlen, ?_⟩
    intro bs hbs'
    injection hbs' with hbs''
    subst hbs''
    exact ⟨by omega, hbl, hbt⟩
  | none =>
    rw [hbr] at hf'
    have hf'' : (stTime L (pos + j)).map
        (fun u => ((none : Option Span), u)) = some (b, t) := hf'
    obtain ⟨u, hu, heq⟩ := Option.map_eq_some'.mp hf''
    injection heq with hb ht
    subst hb
    subst ht
    obtain ⟨hst, hle, hlen⟩ := stTime_inv hu
    exact ⟨by omega, hle, hlen, fun bs hbs => by cases hbs⟩

/-- Inversion for the `author` stage: a nonempty whitespace-free span
starting at the stage start, followed by the post-author facts. -/
lemma stAuthor_inv {L : List Char} {pos : Nat} {a : Span} {b : Option Span} {t : Span}
    (h : stAuthor L pos = some (a, b, t)) :
    a.start = pos ∧ pos < a.stop ∧ a.stop ≤ t.start ∧
    t.start ≤ t.stop ∧ t.stop ≤ L.length ∧
    (∀ bs, b = some bs → a.stop < bs.start ∧ bs.start ≤ bs.stop ∧ bs.stop < t.start) ∧
    (∀ i, pos ≤ i → i < a.stop → ∃ ch, L.get? i = some ch ∧ isPySpace ch = false) := by
  obtain ⟨k, h1, hk, hf⟩ := tryFromPlus_eq_some h
  have hf' : (stAfterAuthor L (pos + k)).map
      (fun bt => ((⟨pos, pos + k⟩ : Span), bt.1, bt.2)) = some (a, b, t) := hf
  obtain ⟨bt, hbt, heq⟩ := Option.map_eq_some'.mp hf'
  obtain ⟨b0, t0⟩ := bt
  injection heq with ha h2
  injection h2 with hb ht
  have ha1 : a.start = pos := by rw [← ha]
  have ha2 : a.stop = pos + k := by rw [← ha]
  have ht1 : t.start = t0.start := by rw [← ht]
  have ht2 : t.stop = t0.stop := by rw [← ht]
  obtain ⟨h3, h4, h5, h6⟩ := stAfterAuthor_inv hbt
  refine ⟨ha1, by omega, by omega, by omega, by omega, ?_, ?_⟩
  · intro bs hbs
    have hb' : b0 = b := hb
    have hbs0 : b0 = some bs := by rw [hb']; exact hbs
    obtain ⟨k1, k2, k3⟩ := h6 bs hbs0
    exact ⟨by omega, k2, by omega⟩
  · intro i hil hir
    have hik : i - pos < k := by omega
    obtain ⟨ch, hch, hpch⟩ := maxRun_char hk hik
    rw [show pos + (i - pos) = i by omega] at hch
    refine ⟨ch, hch, ?_⟩
    cases hps : isPySpace ch with
    | false => rfl
    | true => rw [hps] at hpch; exact absurd hpch (by decide)

/-- Inversion for the whitespace between `commit` and `author`. -/
lemma stAfterCommit_inv {L : List Char} {pos : Nat} {a : Span} {b : Option Span} {t : Span}
    (h : stAfterCommit L pos = some (a, b, t)) :
    pos ≤ a.start ∧ a.start < a.stop ∧ a.stop ≤ t.start ∧
    t.start ≤ t.stop ∧ t.stop ≤ L.length ∧
    (∀ bs, b = some bs → a.stop < bs.start ∧ bs.start ≤ bs.stop ∧ bs.stop < t.start) ∧
    (∀ i, a.start ≤ i → i < a.stop → ∃ ch, L.get? i = some ch ∧ isPySpace ch = false) := by
  obtain ⟨j, hj, hf⟩ := tryFrom_eq_some h
  have hf' : stAuthor L (pos + j) = some (a, b, t) := hf
  obtain ⟨h1, h2, h3, h4, h5, h6, h7⟩ := stAuthor_inv hf'
  refine ⟨by omega, by omega, h3, h4, h5, h6, ?_⟩
  intro i hil hir
  exact h7 i (by omega) hir

/-- Inversion for the `commit` stage. -/
lemma stCommit_inv {L : List Char} {pos : Nat} {c a : Span} {b : Option Span} {t : Span}
    (h : stCommit L pos = some (c, a, b, t)) :
    c.start = pos ∧ pos < c.stop ∧ c.stop ≤ a.start ∧
    a.start < a.stop ∧ a.stop ≤ t.start ∧
    t.start ≤ t.stop ∧ t.stop ≤ L.length ∧
    (∀ bs, b = some bs → a.stop < bs.start ∧ bs.start ≤ bs.stop ∧ bs.stop < t.start) ∧
    (∀ i, c.start ≤ i → i < c.stop → ∃ ch, L.get? i = some ch ∧ isPySpace ch = false) ∧
    (∀ i, a.start ≤ i → i < a.stop → ∃ ch, L.get? i = some ch ∧ isPySpace ch = false) := by
  obtain ⟨k, h1, hk, hf⟩ := tryFromPlus_eq_some h
  have hf' : (stAfterCommit L (pos + k)).map
      (fun r => ((⟨pos, pos + k⟩ : Span), r)) = some (c, a, b, t) := hf
  obtain ⟨r0, hr0, heq⟩ := Option.map_eq_some'.mp hf'
  obtain ⟨a0, b0, t0⟩ := r0
  injection heq with hc h2
  injection h2 with ha h3
  injection h3 with hb ht
  have hc1 : c.start = pos := by rw [← hc]
  have hc2 : c.stop = pos + k := by rw [← hc]
  have ha1 : a.start = a0.start := by rw [← ha]
  have ha2 : a.stop = a0.stop := by rw [← ha]
  have ht1 : t.start = t0.start := by rw [← ht]
  have ht2 : t.stop = t0.stop := by rw [← ht]
  obtain ⟨g1, g2, g3, g4, g5, g6, g7⟩ := stAfterCommit_inv hr0
  refine ⟨hc1, by omega, by omega, by omega, by omega, by omega, by omega, ?_, ?_, ?_⟩
  · intro bs hbs
    have hb' : b0 = b := hb
    have hbs0 : b0 = some bs := by rw [hb']; exact hbs
    obtain ⟨k1, k2, k3⟩ := g6 bs hbs0
    exact ⟨by omega, k2, by omega⟩
  · intro i hil hir
    have hik : i - pos < k := by omega
    obtain ⟨ch, hch, hpch⟩ := maxRun_char hk hik
    rw [show pos + (i - pos) = i by omega] at hch
    refine ⟨ch, hch, ?_⟩
    cases hps : isPySpace ch with
    | false => rfl
    | true => rw [hps] at hpch; exact absurd hpch (by decide)
  · intro i hil hir
    exact g7 i (by omega) (by omega)

/-- Inversion for the whole extraction pattern: the four capture spans
appear in order (commit, author, optional branches, time) without
overlap, inside the line, with nonempty whitespace-free commit and
author spans. -/
lemma matchLogLine_inv {L : List Char} {c a : Span} {b : Option Span} {t : Span}
    (h : matchLogLine L = some (c, a, b, t)) :
    c.start < c.stop ∧ c.stop ≤ a.start ∧ a.start < a.stop ∧ a.stop ≤ t.start ∧
    t.start ≤ t.stop ∧ t.stop ≤ L.length ∧
    (∀ bs, b = some bs → a.stop < bs.start ∧ bs.start ≤ bs.stop ∧ bs.stop < t.start) ∧
    (∀ i, c.start ≤ i → i < c.stop → ∃ ch, L.get? i = some ch ∧ isPySpace ch = false) ∧
    (∀ i, a.start ≤ i → i < a.stop → ∃ ch, L.get? i = some ch ∧ isPySpace ch = false) := by
  obtain ⟨k, hk, hf⟩ := tryFrom_eq_some h
  have hf' : (match L.get? k with
    | some ch => if ch == 'o' || ch == '*' then stAfterGlyph L (k + 1) else none
    | none => none) = some (c, a, b, t) := hf
  cases hg : L.get? k with
  | none => rw [hg] at hf'; cases hf'
  | some ch =>
    rw [hg] at hf'
    by_cases hglyph : (ch == 'o' || ch == '*') = true
    · have hag : stAfterGlyph L (k + 1) = some (c, a, b, t) := by
        have hred : (if ch == 'o' || ch == '*' then stAfterGlyph L (k + 1)
            else none) = some (c, a, b, t) := hf'
        rw [if_pos hglyph] at hred
        exact hred
      obtain ⟨j, hj, hf2⟩ := tryFrom_eq_some hag
      have hf2' : stCommit L (k + 1 + j) = some (c, a, b, t) := hf2
      obtain ⟨g1, g2, g3, g4, g5, g6, g7, g8, g9, g10⟩ := stCommit_inv hf2'
      exact ⟨by omega, g3, g4, g5, g6, g7, g8, g9, g10⟩
    · have hred : (if ch == 'o' || ch == '*' then stAfterGlyph L (k + 1)
          else none) = some (c, a, b, t) := hf'
      rw [if_neg hglyph] at hred
      cases hred

/-- Inversion for the truthiness filter: a returned element carries the
span's text, the span's coordinates, and is nonempty. -/
lemma toElem?_inv {L : List Char} {s : Span} {e : LogLineElement}
    (h : toElem? L s = some e) :
    e.coordinates.1 = s.start ∧ e.coordinates.2 = s.stop ∧
    e.text = spanText L s ∧ e.text ≠ [] := by
  have h' : (if (spanText L s).isEmpty = true then none
      else some (⟨spanText L s, (s.start, s.stop)⟩ : LogLineElement)) = some e := h
  by_cases hemp : (spanText L s).isEmpty = true
  · rw [if_pos hemp] at h'
    cases h'
  · rw [if_neg hemp] at h'
    injection h' with he
    have h1 : e.coordinates.1 = s.start := by rw [← he]
    have h2 : e.coordinates.2 = s.stop := by rw [← he]
    have h3 : e.text = spanText L s := by rw [← he]
    refine ⟨h1, h2, h3, ?_⟩
    intro hnil
    rw [h3] at hnil
    rw [hnil] at hemp
    exact hemp rfl

/-- C8: every field returned by the Field Extractor has a valid span in
the subject line whose slice is exactly the captured text, and the spans
of distinct fields never overlap. -/
theorem field_spans_consistent (L : List Char) :
    (∀ e, (get_elements_from_log_line L).commit = some e → fieldOk L e) ∧
    (∀ e, (get_elements_from_log_line L).author = some e → fieldOk L e) ∧
    (∀ e, (get_elements_from_log_line L).branches = some e → fieldOk L e) ∧
    (∀ e, (get_elements_from_log_line L).time = some e → fieldOk L e) ∧
    (∀ e f, (get_elements_from_log_line L).commit = some e →
      (get_elements_from_log_line L).author = some f → elemsDisjoint e f) ∧
    (∀ e f, (get_elements_from_log_line L).commit = some e →
      (get_elements_from_log_line L).branches = some f → elemsDisjoint e f) ∧
    (∀ e f, (get_elements_from_log_line L).commit = some e →
      (get_elements_from_log_line L).time = some f → elemsDisjoint e f) ∧
    (∀ e f, (get_elements_from_log_line L).author = some e →
      (get_elements_from_log_line L).branches = some f → elemsDisjoint e f) ∧
    (∀ e f, (get_elements_from_log_line L).author = some e →
      (get_elements_from_log_line L).time = some f → elemsDisjoint e f) ∧
    (∀ e f, (get_elements_from_log_line L).branches = some e →
      (get_elements_from_log_line L).time = some f → elemsDisjoint e f) := by
  cases hm : matchLogLine L with
  | none =>
    have hE : get_elements_from_log_line L = ⟨none, none, none, none⟩ := by
      unfold get_elements_from_log_line; rw [hm]
    rw [hE]
    simp
  | some r =>
    obtain ⟨c, a, b, t⟩ := r
    have hE : get_elements_from_log_line L =
        ⟨toElem? L c, toElem? L a, b.bind (fun s => toElem? L s), toElem? L t⟩ := by
      unfold get_elements_from_log_line; rw [hm]
    obtain ⟨g1, g2, g3, g4, g5, g6, g7, g8, g9⟩ := matchLogLine_inv hm
    rw [hE]
    refine ⟨?_, ?_, ?_, ?_, ?_, ?_, ?_, ?_, ?_, ?_⟩
    · intro e he
      obtain ⟨h1, h2, h3, h4⟩ := toElem?_inv (show toElem? L c = some e from he)
      exact ⟨by omega, by omega, by rw [h1, h2, h3]⟩
    · intro e he
      obtain ⟨h1, h2, h3, h4⟩ := toElem?_inv (show toElem? L a = some e from he)
      exact ⟨by omega, by omega, by rw [h1, h2, h3]⟩
    · intro e he
      obtain ⟨bs, hbs, hbse⟩ :=
        Option.bind_eq_some.mp (show b.bind (fun s => toElem? L s) = some e from he)
      obtain ⟨k1, k2, k3⟩ := g7 bs hbs
      obtain ⟨h1, h2, h3, h4⟩ := toElem?_inv hbse
      exact ⟨by omega, by omega, by rw [h1, h2, h3]⟩
    · intro e he
      obtain ⟨h1, h2, h3, h4⟩ := toElem?_inv (show toElem? L t = some e from he)
      exact ⟨by omega, by omega, by rw [h1, h2, h3]⟩
    · intro e f he hf
      obtain ⟨h1, h2, -, -⟩ := toElem?_inv (show toElem? L c = some e from he)
      obtain ⟨h5, h6, -, -⟩ := toElem?_inv (show toElem? L a = some f from hf)
      exact Or.inl (by omega)
    · intro e f he hf
      obtain ⟨h1, h2, -, -⟩ := toElem?_inv (show toElem? L c = some e from he)
      obtain ⟨bs, hbs, hbse⟩ :=
        Option.bind_eq_some.mp (show b.bind (fun s => toElem? L s) = some f from hf)
      obtain ⟨k1, k2, k3⟩ := g7 bs hbs
      obtain ⟨h5, h6, -, -⟩ := toElem?_inv hbse
      exact Or.inl (by omega)
    · intro e f he hf
      obtain ⟨h1, h2, -, -⟩ := toElem?_inv (show toElem? L c = some e from he)
      obtain ⟨h5, h6, -, -⟩ := toElem?_inv (show toElem? L t = some f from hf)
      exact Or.inl (by omega)
    · intro e f he hf
      obtain ⟨h1, h2, -, -⟩ := toElem?_inv (show toElem? L a = some e from he)
      obtain ⟨bs, hbs, hbse⟩ :=
        Option.bind_eq_some.mp (show b.bind (fun s => toElem? L s) = some f from hf)
      obtain ⟨k1, k2, k3⟩ := g7 bs hbs
      obtain ⟨h5, h6, -, -⟩ := toElem?_inv hbse
      exact Or.inl (by omega)
    · intro e f he hf
      obtain ⟨h1, h2, -, -⟩ := toElem?_inv (show toElem? L a = some e from he)
      obtain ⟨h5, h6, -, -⟩ := toElem?_inv (show toElem? L t = some f from hf)
      exact Or.inl (by omega)
    · intro e f he hf
      obtain ⟨bs, hbs, hbse⟩ :=
        Option.bind_eq_some.mp (show b.bind (fun s => toElem? L s) = some e from he)
      obtain ⟨k1, k2, k3⟩ := g7 bs hbs
      obtain ⟨h1, h2, -, -⟩ := toElem?_inv hbse
      obtain ⟨h5, h6, -, -⟩ := toElem?_inv (show toElem? L t = some f from hf)
      exact Or.inl (by omega)

/-- C8 witness: the commit field of a concrete row has a valid,
text-consistent span. -/
theorem field_spans_consistent_witness :
    fieldOk (String.data "o abc alice (main, dev) 2 hours ago")
      ⟨String.data "abc", (2, 5)⟩ :=
  (field_spans_consistent (String.data "o abc alice (main, dev) 2 hours ago")).1
    ⟨String.data "abc", (2, 5)⟩ (by decide)

/-- C4 counterexample: on the row `o ab` (a single token after the
glyph), the pattern backtracks and captures `commit = "a"`,
`author = "b"`: the commit capture is not a whitespace-delimited token of
the line (it is followed by the non-whitespace character `b`). -/
theorem token_fields_counterexample :
    (get_elements_from_log_line (String.data "o ab")).commit =
      some ⟨String.data "a", (2, 3)⟩ ∧
    (get_elements_from_log_line (String.data "o ab")).author =
      some ⟨String.data "b", (3, 4)⟩ ∧
    ¬ maximalToken (String.data "o ab") ⟨String.data "a", (2, 3)⟩ := by
  refine ⟨by decide, by decide, ?_⟩
  intro h
  obtain ⟨-, -, -, hr⟩ := h
  revert hr
  decide

/-- C4 (amended): the captured `commit` and `author` fields are nonempty
runs of non-whitespace characters of the line (each equal to the slice of
the line at its span), but not necessarily maximal runs: a backtracking
match can split a single token between the two captures. -/
theorem token_fields_amended (L : List Char) :
    (∀ e, (get_elements_from_log_line L).commit = some e →
      e.text ≠ [] ∧ (∀ ch ∈ e.text, isPySpace ch = false) ∧
      spanText L ⟨e.coordinates.1, e.coordinates.2⟩ = e.text) ∧
    (∀ e, (get_elements_from_log_line L).author = some e →
      e.text ≠ [] ∧ (∀ ch ∈ e.text, isPySpace ch = false) ∧
      spanText L ⟨e.coordinates.1, e.coordinates.2⟩ = e.text) := by
  cases hm : matchLogLine L with
  | none =>
    have hE : get_elements_from_log_line L = ⟨none, none, none, none⟩ := by
      unfold get_elements_from_log_line; rw [hm]
    rw [hE]
    simp
  | some r =>
    obtain ⟨c, a, b, t⟩ := r
    have hE : get_elements_from_log_line L =
        ⟨toElem? L c, toElem? L a, b.bind (fun s => toElem? L s), toElem? L t⟩ := by
      unfold get_elements_from_log_line; rw [hm]
    obtain ⟨g1, g2, g3, g4, g5, g6, g7, g8, g9⟩ := matchLogLine_inv hm
    rw [hE]
    constructor
    · intro e he
      obtain ⟨h1, h2, h3, h4⟩ := toElem?_inv (show toElem? L c = some e from he)
      refine ⟨h4, ?_, by rw [h1, h2, h3]⟩
      intro ch hch
      rw [h3] at hch
      obtain ⟨i, hi1, hi2, hgi⟩ := mem_spanText hch
      obtain ⟨ch', hch', hps⟩ := g8 i hi1 hi2
      rw [hgi] at hch'
      injection hch' with hcc
      rw [hcc]
      exact hps
    · intro e he
      obtain ⟨h1, h2, h3, h4⟩ := toElem?_inv (show toElem? L a = some e from he)
      refine ⟨h4, ?_, by rw [h1, h2, h3]⟩
      intro ch hch
      rw [h3] at hch
      obtain ⟨i, hi1, hi2, hgi⟩ := mem_spanText hch
      obtain ⟨ch', hch', hps⟩ := g9 i hi1 hi2
      rw [hgi] at hch'
      injection hch' with hcc
      rw [hcc]
      exact hps

/-- C4 witness: the commit capture of a concrete two-token row. -/
theorem token_fields_amended_witness :
    (String.data "abc" : List Char) ≠ [] ∧
    (∀ ch ∈ (String.data "abc" : List Char), isPySpace ch = false) ∧
    spanText (String.data "o abc def") ⟨2, 5⟩ = String.data "abc" :=
  (token_fields_amended (String.data "o abc def")).1
    ⟨String.data "abc", (2, 5)⟩ (by decide)
